import Mathlib

/-!
Verification of the suffix-sorting / BWT construction engine of nvbio
(`nvbio/sufsort/sufsort_inl.h` and the `BWTParams` header).

The C++ code is shallowly embedded: device buffers become Lean functions
`Nat → Nat` or lists, loops become fuel-indexed structural recursions where
the source iterates with a step, and the two escalation drivers are embedded
over an abstract `enact` function of the bucketing width, exactly mirroring
their control flow.  Components of the repository that are not part of the
provided sources (`sufsort_priv.h`, `blockwise_sufsort.h`,
`prefix_doubling_sufsort.h`) are modelled from the specification; each such
definition carries a doc comment starting with `Modelled from the spec:`.
-/

namespace nvbio

/-! ### Suffix order

A suffix of the text `T` is identified by its start position `p`; the implied
terminator `$` compares less than every symbol, so the order on `$`-terminated
suffixes coincides with `List.Lex (· < ·)` on the plain suffixes
(a proper prefix is smaller).  This is the order computed by
`priv::string_suffix_less`. -/

/-- Modelled from the spec: `priv::string_suffix_less` (in `sufsort_priv.h`,
not part of the provided sources) compares two suffixes of the single input
string lexicographically, with the implicit terminator `DOLLAR` comparing
less than every symbol; equivalently, `List.Lex (· < ·)` on the suffixes. -/
def suffLt (t : List Nat) (p q : Nat) : Prop :=
  List.Lex (· < ·) (t.drop p) (t.drop q)

instance (t : List Nat) : DecidableRel (suffLt t) := fun _ _ =>
  List.Lex.decidableRel _ _ _

/-- The non-strict companion of `suffLt`, used as sorting relation. -/
def suffLe (t : List Nat) (p q : Nat) : Prop := ¬ suffLt t q p

instance (t : List Nat) : DecidableRel (suffLe t) := fun _ _ =>
  instDecidableNot

theorem suffLt_irrefl (t : List Nat) (p : Nat) : ¬ suffLt t p p :=
  irrefl_of (List.Lex (· < ·)) _

theorem suffLt_trans {t : List Nat} {p q r : Nat} :
    suffLt t p q → suffLt t q r → suffLt t p r :=
  fun h h' => trans_of (List.Lex (fun a b : Nat => a < b)) h h'

theorem suffLt_asymm {t : List Nat} {p q : Nat} :
    suffLt t p q → ¬ suffLt t q p := fun h h' =>
  suffLt_irrefl t p (suffLt_trans h h')

theorem suffLe_total (t : List Nat) (p q : Nat) :
    suffLe t p q ∨ suffLe t q p := by
  by_cases h : suffLt t q p
  · exact Or.inr (suffLt_asymm h)
  · exact Or.inl h

theorem suffLt_trichotomy (t : List Nat) (p q : Nat) :
    suffLt t p q ∨ t.drop p = t.drop q ∨ suffLt t q p :=
  trichotomous_of (List.Lex (· < ·)) _ _

theorem suffLe_trans {t : List Nat} {p q r : Nat} :
    suffLe t p q → suffLe t q r → suffLe t p r := by
  intro hpq hqr hrp
  rcases suffLt_trichotomy t q r with h | h | h
  · exact hpq (suffLt_trans h hrp)
  · exact hpq (by rw [suffLt, h]; exact hrp)
  · exact hqr h

/-- Distinct in-range start positions give distinct suffixes. -/
theorem drop_injective {t : List Nat} {p q : Nat}
    (hp : p ≤ t.length) (hq : q ≤ t.length) (h : t.drop p = t.drop q) :
    p = q := by
  have := congrArg List.length h
  simp only [List.length_drop] at this
  omega

/-! ### The sorted list of suffix positions

`blockwise_suffix_sort` / `PrefixDoublingSufSort` (in `blockwise_sufsort.h`
and `prefix_doubling_sufsort.h`, not part of the provided sources) produce the
suffix positions of the input string in lexicographic order of the suffixes. -/

/-- Modelled from the spec: the list of all proper suffix positions `[0,N)` of
`t`, sorted lexicographically (the result both of `PrefixDoublingSufSort` and
of the batches delivered by `blockwise_suffix_sort`). -/
def sortedSuffixes (t : List Nat) : List Nat :=
  List.insertionSort (suffLe t) (List.range t.length)

theorem sortedSuffixes_perm (t : List Nat) :
    List.Perm (sortedSuffixes t) (List.range t.length) :=
  List.perm_insertionSort _ _

theorem sortedSuffixes_mem {t : List Nat} {p : Nat} :
    p ∈ sortedSuffixes t ↔ p < t.length := by
  rw [(sortedSuffixes_perm t).mem_iff, List.mem_range]

theorem sortedSuffixes_nodup (t : List Nat) : (sortedSuffixes t).Nodup :=
  (sortedSuffixes_perm t).nodup_iff.2 (List.nodup_range _)

theorem sortedSuffixes_sorted_le (t : List Nat) :
    List.Sorted (suffLe t) (sortedSuffixes t) :=
  letI : IsTotal Nat (suffLe t) := ⟨suffLe_total t⟩
  letI : IsTrans Nat (suffLe t) := ⟨fun _ _ _ => suffLe_trans⟩
  List.sorted_insertionSort _ _

/-- The sorted suffix list is strictly sorted: distinct in-range positions
have distinct suffixes, so `suffLe` collapses to `suffLt` along it. -/
theorem sortedSuffixes_sorted_lt (t : List Nat) :
    List.Sorted (suffLt t) (sortedSuffixes t) := by
  have hmem := List.Pairwise.and_mem.1 (sortedSuffixes_sorted_le t)
  refine (hmem.imp₂ (fun p q hpq hne => ?_) (sortedSuffixes_nodup t))
  rcases hpq with ⟨hp, hq, hle⟩
  rcases suffLt_trichotomy t p q with h | h | h
  · exact h
  · exact absurd
      (drop_injective (le_of_lt (sortedSuffixes_mem.1 hp))
        (le_of_lt (sortedSuffixes_mem.1 hq)) h) hne
  · exact absurd h hle

/-! ### `BWTParams` and derived budgets

`BWTParams` is declared in the sufsort header; `LargeBWTSkeleton::enact`
derives the host super-block capacity and the device block capacity from it
(`sufsort_inl.h`, lines 545-550).  Both derived values are `uint32`, while the
parameters are `uint64`; the embedding keeps the wrap-arounds explicit. -/

/-- `BWTParams` from the sufsort header: two memory envelopes in bytes. -/
structure BWTParams where
  host_memory : Nat
  device_memory : Nat

/-- The default-constructed `BWTParams`:
`host_memory(8u*1024u*1024u*1024llu), device_memory(2u*1024u*1024u*1024llu)`. -/
def bwtParamsDefault : BWTParams :=
  { host_memory := 8 * 1024 * 1024 * 1024, device_memory := 2 * 1024 * 1024 * 1024 }

/-- `max_super_block_size` from `LargeBWTSkeleton::enact`:
`params ? (params->host_memory - (128u*1024u*1024u)) / 8u : 512*1024*1024`,
computed on `uint64` and stored in a `uint32`. -/
def max_super_block_size (params : Option BWTParams) : Nat :=
  match params with
  | some p => (((p.host_memory + 2 ^ 64 - 128 * 1024 * 1024) % 2 ^ 64) / 8) % 2 ^ 32
  | none => 512 * 1024 * 1024

/-- `max_block_size` from `LargeBWTSkeleton::enact`:
`params ? params->device_memory / 32 : 32*1024*1024`, stored in a `uint32`. -/
def max_block_size (params : Option BWTParams) : Nat :=
  match params with
  | some p => (p.device_memory / 32) % 2 ^ 32
  | none => 32 * 1024 * 1024

/-! ### `LargeBWTStatus` and the bucketing-width escalation drivers

`cuda::bwt` (string-set overload) and `large_bwt` try 16-, 20- and 24-bit
bucketing in turn; each attempt is a call `LargeBWTSkeleton<config>::enact`.
The drivers are embedded over an abstract `enact : Nat → LargeBWTStatus`
mapping the bucketing width to the status of that attempt. -/

/-- `LargeBWTStatus::OK`. -/
def statusOK : Nat := 0

/-- `LargeBWTStatus::LargeBucket`. -/
def statusLargeBucket : Nat := 1

/-- The simple status class of the sufsort header. -/
structure LargeBWTStatus where
  code : Nat
  bucket_size : Nat
  bucket_index : Nat
deriving DecidableEq

/-- The default constructor `LargeBWTStatus() : code(OK)`; the other fields
are left uninitialized and modelled as zero. -/
def LargeBWTStatus.init : LargeBWTStatus :=
  { code := statusOK, bucket_size := 0, bucket_index := 0 }

/-- `operator bool` of `LargeBWTStatus`: `code == OK ? true : false`. -/
def LargeBWTStatus.toBool (s : LargeBWTStatus) : Bool :=
  s.code == statusOK

/-- `util::divide_ri`: division rounding towards infinity. -/
def divide_ri (x y : Nat) : Nat := (x + y - 1) / y

/-- The error thrown when the escalation table is exhausted: the offending
sub-bucket index, its size, and the suggested minimum device memory in MB. -/
structure LargeBucketError where
  bucket_index : Nat
  bucket_size : Nat
  min_device_mb : Nat
deriving DecidableEq

/-- The error payload built by the `runtime_error` at the end of the chain:
`status.bucket_index`, `status.bucket_size`,
`util::divide_ri(status.bucket_size, 1024u*1024u)*32u` MB. -/
def largeBucketPayload (s : LargeBWTStatus) : LargeBucketError :=
  { bucket_index := s.bucket_index
    bucket_size := s.bucket_size
    min_device_mb := divide_ri s.bucket_size (1024 * 1024) * 32 }

/-- The escalation chain of the string-set `cuda::bwt` overload
(`sufsort_inl.h`, lines 1043-1068): try 16-bit bucketing, return on success
(`if (status = enact(...)) return;`), escalate to 20- then 24-bit bucketing,
and finally throw a `runtime_error` if the last status is `LargeBucket`. -/
def cuda_bwt_set (enact : Nat → LargeBWTStatus) : Except LargeBucketError Unit :=
  let s16 := enact 16
  if s16.toBool then Except.ok () else
  let s20 := enact 20
  if s20.toBool then Except.ok () else
  let s24 := enact 24
  if s24.toBool then Except.ok () else
  if s24.code = statusLargeBucket then Except.error (largeBucketPayload s24)
  else Except.ok ()

/-- The escalation chain of the host-side `large_bwt`
(`sufsort_inl.h`, lines 1086-1111), identical in structure to the
string-set `cuda::bwt` overload. -/
def large_bwt (enact : Nat → LargeBWTStatus) : Except LargeBucketError Unit :=
  let s16 := enact 16
  if s16.toBool then Except.ok () else
  let s20 := enact 20
  if s20.toBool then Except.ok () else
  let s24 := enact 24
  if s24.toBool then Except.ok () else
  if s24.code = statusLargeBucket then Except.error (largeBucketPayload s24)
  else Except.ok ()

/-! ### `LargeBWTSkeleton::max_subbucket_size`

The function (`sufsort_inl.h`, lines 418-467) walks the bucket histogram in
super-blocks (greedily growing each block while its total fits the host
budget), throws if a single bucket alone exceeds the host budget, tracks the
largest bucket among those that are NOT short-string buckets
(`(subbucket & DOLLAR_MASK) == DOLLAR_MASK`), and flags `LargeBucket` when
that maximum exceeds the device block limit.  The outer loop is embedded with
an explicit fuel argument (the source advances by at least one bucket per
iteration, so fuel `h.length` is always enough). -/

/-- The greedy grow loop of `max_subbucket_size`: how many buckets, starting
from the front of `l`, fit together within `super` given running total
`acc`. -/
def growSuperBlock (super : Nat) (acc : Nat) : List Nat → Nat
  | [] => 0
  | v :: rest => if acc + v ≤ super then growSuperBlock super (acc + v) rest + 1 else 0

/-- The sub-bucket scan of `max_subbucket_size` over one super-block: for each
bucket index (starting at `i0`) that is not a short-string bucket
(`i &&& mask = mask`), improve the running `(max_size, max_index)` pair. -/
def scanNonShort (mask : Nat) : List Nat → Nat → Nat × Nat → Nat × Nat
  | [], _, m => m
  | v :: rest, i0, m =>
      scanNonShort mask rest (i0 + 1)
        (if i0 &&& mask = mask ∧ m.1 < v then (v, i0) else m)

/-- The outer super-block loop of `max_subbucket_size`; `.error ()` models the
`runtime_error` thrown when a single bucket exceeds the host budget.  `fuel`
only bounds the number of iterations; it is immaterial once at least
`l.length` (each iteration consumes at least one bucket). -/
def msbAux (super mask : Nat) : Nat → List Nat → Nat → Nat × Nat → Except Unit (Nat × Nat)
  | _, [], _, m => Except.ok m
  | 0, _ :: _, _, m => Except.ok m
  | fuel + 1, l, b, m =>
      let cnt := growSuperBlock super 0 l
      if cnt = 0 then Except.error ()
      else msbAux super mask fuel (l.drop cnt) (b + cnt) (scanNonShort mask (l.take cnt) b m)

/-- `LargeBWTSkeleton::max_subbucket_size`: the returned maximum together with
the `LargeBWTStatus` it writes (the status is default-`OK` and set to
`LargeBucket` exactly when the maximum exceeds `limit`). -/
def max_subbucket_size (h : List Nat) (super limit mask : Nat) :
    Except Unit (Nat × LargeBWTStatus) :=
  match msbAux super mask h.length h 0 (0, 0) with
  | Except.error () => Except.error ()
  | Except.ok (maxSize, maxIdx) =>
      Except.ok (maxSize,
        if limit < maxSize
        then { code := statusLargeBucket, bucket_size := maxSize, bucket_index := maxIdx }
        else LargeBWTStatus.init)

/-- The three ways `LargeBWTSkeleton::enact` treats a sub-bucket in its main
loop (`sufsort_inl.h`, lines 850-1011). -/
inductive SubbucketRoute where
  | sorter : SubbucketRoute
  | directEmit : SubbucketRoute
  | overflowError : SubbucketRoute
deriving DecidableEq

/-- The dispatch of `enact` on a sub-bucket: buckets larger than the device
block budget either throw (non-short-string buckets) or are chopped into
blocks whose BWT symbols are emitted directly without the string sorter
(short-string buckets); all other buckets go through the block sorter. -/
def subbucket_route (bucketSize maxBlock idx mask : Nat) : SubbucketRoute :=
  if maxBlock < bucketSize then
    (if idx &&& mask = mask then SubbucketRoute.overflowError else SubbucketRoute.directEmit)
  else SubbucketRoute.sorter

/-! ### `cuda::find_primary` -/

/-- `cuda::find_primary` (`sufsort_inl.h`, lines 46-63): count the suffixes
with start in `[1, N)` that compare less than the suffix at `0`, plus one. -/
def find_primary (t : List Nat) : Nat :=
  ((List.range' 1 (t.length - 1)).countP (fun p => decide (suffLt t p 0))) + 1

/-! ### The single-string BWT pipeline

`cuda::bwt` (`sufsort_inl.h`, lines 268-341) writes the first BWT symbol
`T[N-1]` at slot 0, runs `blockwise_suffix_sort` against a
`StringBWTHandler` whose `process_batch` appends the batch's BWT symbols at
slots `n_output + 1, ...` and records the primary, and finally shifts the
symbols following the primary back by one slot, in chunks of 32M. -/

/-- Modelled from the spec: `priv::string_bwt_functor` (in `sufsort_priv.h`,
not part of the provided sources) maps a suffix start `p` to its BWT symbol,
`DOLLAR` if `p = 0` and `T[p-1]` otherwise; the dollar is represented by the
marker value 255 that the handler searches for. -/
def string_bwt_functor (t : List Nat) (p : Nat) : Nat :=
  if p = 0 then 255 else t.getD (p - 1) 0

/-- `StringBWTHandler::NULL_PRIMARY = uint32(-1)`. -/
def NULL_PRIMARY : Nat := 2 ^ 32 - 1

/-- The mutable state of `StringBWTHandler`: the recorded primary, the count
of suffixes output so far, and the output buffer (a total map from slot to
symbol; unwritten slots read as 0). -/
structure StringBWTHandler where
  primary : Nat
  n_output : Nat
  output : Nat → Nat

/-- `StringBWTHandler::process_batch`: map the batch through
`string_bwt_functor`, search the block for the 255 marker to update the
primary (`n_output + block_primary + 1`), and copy the block to the output at
offset `n_output + 1`. -/
def processBatch (t : List Nat) (batch : List Nat) (h : StringBWTHandler) :
    StringBWTHandler :=
  let blockBwt := batch.map (string_bwt_functor t)
  let n := batch.length
  let blockPrimary := blockBwt.findIdx (fun c => c == 255)
  { primary := if blockPrimary < n then h.n_output + blockPrimary + 1 else h.primary
    n_output := h.n_output + n
    output := fun i =>
      if h.n_output + 1 ≤ i ∧ i < h.n_output + 1 + n
      then blockBwt.getD (i - (h.n_output + 1)) 0
      else h.output i }

/-- `StringBWTHandler::process_scattered`: like `process_batch` but scatters
each symbol to slot `d_slots[j] + 1` instead of appending. -/
def processScattered (t : List Nat) (suffixes slots : List Nat)
    (h : StringBWTHandler) : StringBWTHandler :=
  let blockBwt := suffixes.map (string_bwt_functor t)
  let n := suffixes.length
  let blockPrimary := blockBwt.findIdx (fun c => c == 255)
  { primary := if blockPrimary < n then slots.getD blockPrimary 0 + 1 else h.primary
    n_output := h.n_output
    output := (List.range n).foldl
      (fun f j => Function.update f (slots.getD j 0 + 1) (blockBwt.getD j 0)) h.output }

/-- The handler as constructed in `cuda::bwt` just after the explicit
`device_copy` of the first BWT symbol `T[N-1]` to slot 0. -/
def bwtInit (t : List Nat) : StringBWTHandler :=
  { primary := NULL_PRIMARY
    n_output := 0
    output := Function.update (fun _ => 0) 0 (t.getD (t.length - 1) 0) }

/-- `max_block_size = 32*1024*1024` of the shift-back loop in `cuda::bwt`. -/
def shiftChunkSize : Nat := 32 * 1024 * 1024

/-- The shift-back loop of `cuda::bwt` (lines 314-338): for each chunk
`[b, min (b + 32M) N)`, copy slots `b+1 ... e` to a scratch block and write
the block back at `b ... e-1`.  `fuel` bounds the iterations; `N - b` is
always enough since each chunk advances by at least one slot. -/
def shiftChunks (N : Nat) : Nat → (Nat → Nat) → Nat → (Nat → Nat)
  | 0, out, _ => out
  | fuel + 1, out, b =>
    if b < N then
      let e := min (b + shiftChunkSize) N
      shiftChunks N fuel (fun i => if b ≤ i ∧ i < e then out (i + 1) else out i) e
    else out

/-- The whole shift-back phase, starting at the primary. -/
def shift_back (N : Nat) (out : Nat → Nat) (b : Nat) : Nat → Nat :=
  shiftChunks N (N - b) out b

/-- The handler state after `blockwise_suffix_sort` has delivered all sorted
suffixes to `process_batch` (modelled from the spec as a single batch). -/
def cuda_bwt_handler (t : List Nat) : StringBWTHandler :=
  processBatch t (sortedSuffixes t) (bwtInit t)

/-- The output buffer of `cuda::bwt` after the shift-back phase. -/
def cuda_bwt_out (t : List Nat) : Nat → Nat :=
  shift_back t.length (cuda_bwt_handler t).output (cuda_bwt_handler t).primary

/-- The return value of `cuda::bwt`: the recorded primary. -/
def cuda_bwt_primary (t : List Nat) : Nat := (cuda_bwt_handler t).primary

/-- The `N` symbols emitted by `cuda::bwt` (the output buffer restricted to
slots `[0, N)`). -/
def cuda_bwt_list (t : List Nat) : List Nat :=
  (List.range t.length).map (cuda_bwt_out t)

/-- The single-string `cuda::suffix_sort` (`sufsort_inl.h`, lines 138-153):
`PrefixDoublingSufSort::sort` fills `output + 1` with the sorted proper
suffixes (modelled from the spec), then `output[0] = string_len`. -/
def suffix_sort_single (t : List Nat) : List Nat :=
  t.length :: sortedSuffixes t

/-! ### The reference rotation-sort BWT of `T$` -/

/-- The end-marker of the reference definition, strictly smaller than every
symbol (symbols are naturals embedded into the integers). -/
def dollarSym : Int := -1

/-- The embedding of a symbol into the integers used by the reference
definition. -/
def symInt (c : Nat) : Int := Int.ofNat c

/-- `T$`: the input string with the end-marker appended, over the integers. -/
def withDollar (t : List Nat) : List Int :=
  t.map symInt ++ [dollarSym]

/-- The rotation of `T$` starting at position `p`. -/
def rotation (t : List Nat) (p : Nat) : List Int :=
  (withDollar t).drop p ++ (withDollar t).take p

/-- Lexicographic comparison of two rotations of `T$`. -/
def rotLt (t : List Nat) (p q : Nat) : Prop :=
  List.Lex (· < ·) (rotation t p) (rotation t q)

instance (t : List Nat) : DecidableRel (rotLt t) := fun _ _ =>
  List.Lex.decidableRel _ _ _

/-- The non-strict companion of `rotLt`, used as sorting relation. -/
def rotLe (t : List Nat) (p q : Nat) : Prop := ¬ rotLt t q p

instance (t : List Nat) : DecidableRel (rotLe t) := fun _ _ =>
  instDecidableNot

/-- The rotation start positions of `T$`, sorted by rotation order. -/
def sortedRotations (t : List Nat) : List Nat :=
  List.insertionSort (rotLe t) (List.range (t.length + 1))

/-- The reference BWT of `T$`: the last column of the sorted rotation
matrix. -/
def bwtRef (t : List Nat) : List Int :=
  (sortedRotations t).map (fun p => (rotation t p).getLastD 0)

/-! ### The string-set dollar phase

`LargeBWTSkeleton::enact` (lines 574-617) first outputs the last character of
each string, in blocks of `max_block_size / 4` strings, before any counting,
collecting or sorting takes place. -/

/-- Modelled from the spec: `dollar_bwt` of the string-set handler (in
`sufsort_priv.h`, not part of the provided sources) loads, for each string
`k` in `[b, e)`, the last symbol of string `k` — the predecessor of that
string's dollar. -/
def dollar_bwt (S : List (List Nat)) (b e : Nat) : List Nat :=
  (List.range' b (e - b)).map (fun k => (S.getD k []).getLastD 0)

/-- The blocked dollar loop at the top of `enact`: process strings
`[b, min (b + blockSize) N)` per iteration, invoking the output handler with
each block in turn.  `fuel` bounds the iterations; `N` is always enough for
a positive `blockSize`. -/
def dollarLoop (S : List (List Nat)) (blockSize : Nat) : Nat → Nat → List Nat
  | 0, _ => []
  | fuel + 1, b =>
    if b < S.length then
      dollar_bwt S b (min (b + blockSize) S.length) ++
        dollarLoop S blockSize fuel (min (b + blockSize) S.length)
    else []

/-- All symbols emitted by the dollar phase of `enact`, in emission order. -/
def enact_dollar_phase (S : List (List Nat)) (blockSize : Nat) : List Nat :=
  dollarLoop S blockSize S.length 0

/-! ### Lemmas about `max_subbucket_size` -/

theorem growSuperBlock_le (super : Nat) :
    ∀ (l : List Nat) (acc : Nat), growSuperBlock super acc l ≤ l.length := by
  intro l
  induction l with
  | nil => intro acc; simp [growSuperBlock]
  | cons v rest ih =>
    intro acc
    rw [growSuperBlock]
    split
    · simpa using ih (acc + v)
    · simp

theorem growSuperBlock_pos (super v : Nat) (rest : List Nat) (h : v ≤ super) :
    0 < growSuperBlock super 0 (v :: rest) := by
  rw [growSuperBlock, if_pos (by omega)]
  omega

theorem scanNonShort_fst (mask : Nat) :
    ∀ (vals : List Nat) (i0 : Nat) (m : Nat × Nat) (x : Nat),
      x < (scanNonShort mask vals i0 m).1 ↔
        x < m.1 ∨ ∃ j, j < vals.length ∧ (i0 + j) &&& mask = mask ∧ x < vals.getD j 0 := by
  intro vals
  induction vals with
  | nil => intro i0 m x; simp [scanNonShort]
  | cons v rest ih =>
    intro i0 m x
    rw [scanNonShort, ih]
    by_cases hc : i0 &&& mask = mask ∧ m.1 < v
    · rw [if_pos hc]
      constructor
      · rintro (hx | ⟨j, hj, hm, hx⟩)
        · by_cases hxm : x < m.1
          · exact Or.inl hxm
          · exact Or.inr ⟨0, by simp, by simpa using hc.1, by simpa using hx⟩
        · refine Or.inr ⟨j + 1, by simpa using hj, ?_, by simpa using hx⟩
          rw [show i0 + (j + 1) = i0 + 1 + j by omega]
          exact hm
      · rintro (hx | ⟨j, hj, hm, hx⟩)
        · exact Or.inl (lt_trans hx hc.2)
        · match j with
          | 0 => exact Or.inl (by simpa using hx)
          | j + 1 =>
            refine Or.inr ⟨j, by simpa using hj, ?_, by simpa using hx⟩
            rw [show i0 + 1 + j = i0 + (j + 1) by omega]
            exact hm
    · rw [if_neg hc]
      constructor
      · rintro (hx | ⟨j, hj, hm, hx⟩)
        · exact Or.inl hx
        · refine Or.inr ⟨j + 1, by simpa using hj, ?_, by simpa using hx⟩
          rw [show i0 + (j + 1) = i0 + 1 + j by omega]
          exact hm
      · rintro (hx | ⟨j, hj, hm, hx⟩)
        · exact Or.inl hx
        · match j with
          | 0 =>
            rw [Nat.add_zero] at hm
            simp only [List.getD_cons_zero] at hx
            rcases Decidable.not_and_iff_or_not.mp hc with h | h
            · exact absurd hm h
            · exact Or.inl (by omega)
          | j + 1 =>
            refine Or.inr ⟨j, by simpa using hj, ?_, by simpa using hx⟩
            rw [show i0 + 1 + j = i0 + (j + 1) by omega]
            exact hm

theorem msbAux_spec (super mask : Nat) :
    ∀ (fuel : Nat) (l : List Nat) (b : Nat) (m : Nat × Nat),
      (∀ v ∈ l, v ≤ super) → l.length ≤ fuel →
      ∃ r : Nat × Nat, msbAux super mask fuel l b m = Except.ok r ∧
        ∀ x, (x < r.1 ↔
          x < m.1 ∨ ∃ j, j < l.length ∧ (b + j) &&& mask = mask ∧ x < l.getD j 0) := by
  intro fuel
  induction fuel with
  | zero =>
    intro l b m _ hlen
    have hl : l = [] := List.length_eq_zero.mp (Nat.le_zero.mp hlen)
    subst hl
    exact ⟨m, rfl, by simp⟩
  | succ fuel ih =>
    intro l b m hv hlen
    match l with
    | [] => exact ⟨m, rfl, by simp⟩
    | v :: rest =>
      have hvs : v ≤ super := hv v (by simp)
      have hcnt : 0 < growSuperBlock super 0 (v :: rest) := growSuperBlock_pos _ _ _ hvs
      have hcle : growSuperBlock super 0 (v :: rest) ≤ (v :: rest).length :=
        growSuperBlock_le _ _ _
      have hstep : msbAux super mask (fuel + 1) (v :: rest) b m =
          if growSuperBlock super 0 (v :: rest) = 0 then Except.error () else
            msbAux super mask fuel ((v :: rest).drop (growSuperBlock super 0 (v :: rest)))
              (b + growSuperBlock super 0 (v :: rest))
              (scanNonShort mask ((v :: rest).take (growSuperBlock super 0 (v :: rest))) b m) :=
        rfl
      rw [hstep, if_neg (by omega)]
      obtain ⟨r, hr, hiff⟩ := ih ((v :: rest).drop (growSuperBlock super 0 (v :: rest)))
        (b + growSuperBlock super 0 (v :: rest))
        (scanNonShort mask ((v :: rest).take (growSuperBlock super 0 (v :: rest))) b m)
        (fun x hx => hv x (List.mem_of_mem_drop hx))
        (by simp only [List.length_drop]; simp only [List.length_cons] at hlen ⊢; omega)
      refine ⟨r, hr, fun x => ?_⟩
      rw [hiff, scanNonShort_fst]
      set cnt := growSuperBlock super 0 (v :: rest) with hcntdef
      set L := v :: rest with hL
      have htklen : (L.take cnt).length = cnt := by
        simp [List.length_take]; omega
      have hdplen : (L.drop cnt).length = L.length - cnt := by simp
      have htkget : ∀ j, j < cnt → (L.take cnt).getD j 0 = L.getD j 0 := by
        intro j hj
        rw [List.getD_eq_getElem?_getD, List.getD_eq_getElem?_getD, List.getElem?_take,
          if_pos hj]
      have hdpget : ∀ j, (L.drop cnt).getD j 0 = L.getD (cnt + j) 0 := by
        intro j
        rw [List.getD_eq_getElem?_getD, List.getD_eq_getElem?_getD, List.getElem?_drop]
      constructor
      · rintro ((hx | ⟨j, hj, hm, hx⟩) | ⟨j, hj, hm, hx⟩)
        · exact Or.inl hx
        · rw [htklen] at hj
          exact Or.inr ⟨j, by omega, hm, by rwa [htkget j hj] at hx⟩
        · rw [hdplen] at hj
          refine Or.inr ⟨cnt + j, by omega, ?_, by rwa [hdpget j] at hx⟩
          rw [show b + (cnt + j) = b + cnt + j by omega]
          exact hm
      · rintro (hx | ⟨j, hj, hm, hx⟩)
        · exact Or.inl (Or.inl hx)
        · by_cases hjc : j < cnt
          · exact Or.inl (Or.inr ⟨j, by rwa [htklen], hm, by rwa [htkget j hjc]⟩)
          · refine Or.inr ⟨j - cnt, by rw [hdplen]; omega, ?_, ?_⟩
            · rw [show b + cnt + (j - cnt) = b + j by omega]
              exact hm
            · rw [hdpget, show cnt + (j - cnt) = j by omega]
              exact hx

theorem max_subbucket_size_spec (h : List Nat) (super limit mask : Nat)
    (hv : ∀ v ∈ h, v ≤ super) :
    ∃ ms st, max_subbucket_size h super limit mask = Except.ok (ms, st) ∧
      (st.code = statusLargeBucket ↔
        ∃ i, i < h.length ∧ i &&& mask = mask ∧ limit < h.getD i 0) ∧
      (st.code = statusLargeBucket → st.bucket_size = ms ∧ limit < ms) := by
  obtain ⟨r, hr, hiff⟩ := msbAux_spec super mask h.length h 0 (0, 0) hv le_rfl
  obtain ⟨ms, mi⟩ := r
  have hiff' : ∀ x, x < ms ↔ ∃ j, j < h.length ∧ j &&& mask = mask ∧ x < h.getD j 0 := by
    intro x
    rw [hiff x]
    simp
  have hmsb : max_subbucket_size h super limit mask = Except.ok (ms,
      if limit < ms
      then { code := statusLargeBucket, bucket_size := ms, bucket_index := mi }
      else LargeBWTStatus.init) := by
    unfold max_subbucket_size
    rw [hr]
  rw [hmsb]
  by_cases hlt : limit < ms
  · rw [if_pos hlt]
    refine ⟨ms, _, rfl, ?_, fun _ => ⟨rfl, hlt⟩⟩
    constructor
    · intro _; exact (hiff' limit).mp hlt
    · intro _; rfl
  · rw [if_neg hlt]
    refine ⟨ms, _, rfl, ?_, fun hc => absurd hc (by simp [LargeBWTStatus.init, statusOK, statusLargeBucket])⟩
    simp only [LargeBWTStatus.init, statusOK, statusLargeBucket]
    constructor
    · intro hc; exact absurd hc (by norm_num)
    · intro hex; exact absurd ((hiff' limit).mpr hex) hlt

/-! ### Lemmas about the shift-back loop and the dollar loop -/

theorem shiftChunks_eq (N : Nat) :
    ∀ (fuel b : Nat) (out : Nat → Nat), N - b ≤ fuel →
      ∀ i, shiftChunks N fuel out b i = if b ≤ i ∧ i < N then out (i + 1) else out i := by
  intro fuel
  induction fuel with
  | zero =>
    intro b out hb i
    rw [shiftChunks, if_neg (by omega)]
  | succ fuel ih =>
    intro b out hb i
    rw [shiftChunks]
    by_cases hbN : b < N
    · rw [if_pos hbN]
      have he1 : b < min (b + shiftChunkSize) N :=
        lt_min (by norm_num [shiftChunkSize]) hbN
      have he2 : min (b + shiftChunkSize) N ≤ N := min_le_right _ _
      set e := min (b + shiftChunkSize) N with hedef
      rw [ih e _ (by omega) i]
      split_ifs <;> first | rfl | omega
    · rw [if_neg hbN, if_neg (by omega)]

theorem dollarLoop_eq (S : List (List Nat)) (blockSize : Nat) (hbs : 0 < blockSize) :
    ∀ (fuel b : Nat), S.length - b ≤ fuel →
      dollarLoop S blockSize fuel b =
        (List.range' b (S.length - b)).map (fun k => (S.getD k []).getLastD 0) := by
  intro fuel
  induction fuel with
  | zero =>
    intro b hb
    rw [show S.length - b = 0 by omega]
    simp [dollarLoop]
  | succ fuel ih =>
    intro b hb
    rw [dollarLoop]
    by_cases hbN : b < S.length
    · rw [if_pos hbN]
      rw [ih (min (b + blockSize) S.length) (by omega)]
      rw [dollar_bwt]
      rw [← List.map_append]
      congr 1
      have := List.range'_append b (min (b + blockSize) S.length - b)
        (S.length - min (b + blockSize) S.length) 1
      rw [show b + 1 * (min (b + blockSize) S.length - b) = min (b + blockSize) S.length
        by omega] at this
      rw [this]
      congr 1
      omega
    · rw [if_neg hbN, show S.length - b = 0 by omega]
      simp


theorem range_map_getD {α : Type} (S : List α) (d : α) :
    (List.range S.length).map (fun k => S.getD k d) = S := by
  apply List.ext_getElem
  · simp
  · intro n h1 h2
    simp only [List.getElem_map, List.getElem_range]
    exact List.getD_eq_getElem S d h2

/-! ### The rotation order on `T$` and its relation to the suffix order -/

theorem rotLt_irrefl (t : List Nat) (p : Nat) : ¬ rotLt t p p :=
  irrefl_of (List.Lex (· < ·)) _

theorem rotLt_trans {t : List Nat} {p q r : Nat} :
    rotLt t p q → rotLt t q r → rotLt t p r :=
  fun h h' => trans_of (List.Lex (fun a b : Int => a < b)) h h'

theorem rotLt_asymm {t : List Nat} {p q : Nat} :
    rotLt t p q → ¬ rotLt t q p := fun h h' =>
  rotLt_irrefl t p (rotLt_trans h h')

theorem rotLe_total (t : List Nat) (p q : Nat) :
    rotLe t p q ∨ rotLe t q p := by
  by_cases h : rotLt t q p
  · exact Or.inr (rotLt_asymm h)
  · exact Or.inl h

theorem rotLt_trichotomy (t : List Nat) (p q : Nat) :
    rotLt t p q ∨ rotation t p = rotation t q ∨ rotLt t q p :=
  trichotomous_of (List.Lex (· < ·)) _ _

theorem rotLe_trans {t : List Nat} {p q r : Nat} :
    rotLe t p q → rotLe t q r → rotLe t p r := by
  intro hpq hqr hrp
  rcases rotLt_trichotomy t q r with h | h | h
  · exact hpq (rotLt_trans h hrp)
  · exact hpq (by rw [rotLt, h]; exact hrp)
  · exact hqr h

theorem sortedRotations_perm (t : List Nat) :
    List.Perm (sortedRotations t) (List.range (t.length + 1)) :=
  List.perm_insertionSort _ _

theorem sortedRotations_mem {t : List Nat} {p : Nat} :
    p ∈ sortedRotations t ↔ p < t.length + 1 := by
  rw [(sortedRotations_perm t).mem_iff, List.mem_range]

theorem sortedRotations_nodup (t : List Nat) : (sortedRotations t).Nodup :=
  (sortedRotations_perm t).nodup_iff.2 (List.nodup_range _)

theorem sortedRotations_sorted_le (t : List Nat) :
    List.Sorted (rotLe t) (sortedRotations t) :=
  letI : IsTotal Nat (rotLe t) := ⟨rotLe_total t⟩
  letI : IsTrans Nat (rotLe t) := ⟨fun _ _ _ => rotLe_trans⟩
  List.sorted_insertionSort _ _

/-- Lexicographic comparison of dollar-terminated strings (with arbitrary
material after the dollar) agrees with `List.Lex` on the plain strings, as
long as the strings differ: symbols are nonnegative and the dollar is
negative, so a proper prefix still compares less. -/
theorem lex_dollar_append :
    ∀ (u v : List Nat) (x y : List Int), u ≠ v →
      (List.Lex (· < ·) ((u.map symInt) ++ dollarSym :: x)
        ((v.map symInt) ++ dollarSym :: y) ↔
        List.Lex (· < ·) u v) := by
  intro u
  induction u with
  | nil =>
    intro v x y hne
    cases v with
    | nil => exact absurd rfl hne
    | cons b v' =>
      constructor
      · intro _; exact List.Lex.nil
      · intro _
        refine List.Lex.rel ?_
        show dollarSym < (b : Int)
        have : (0 : Int) ≤ (b : Int) := Int.natCast_nonneg b
        simp only [dollarSym]
        omega
  | cons a u' ih =>
    intro v x y hne
    cases v with
    | nil =>
      constructor
      · intro h
        exfalso
        cases h with
        | rel h' =>
          have : (0 : Int) ≤ (a : Int) := Int.natCast_nonneg a
          have h'' : (a : Int) < dollarSym := h'
          simp only [dollarSym] at h''
          omega
      · intro h; exact absurd h (List.Lex.not_nil_right _ _)
    | cons b v' =>
      rcases lt_trichotomy a b with hab | hab | hab
      · constructor
        · intro _; exact List.Lex.rel hab
        · intro _
          refine List.Lex.rel ?_
          show (a : Int) < (b : Int)
          exact_mod_cast hab
      · subst hab
        show List.Lex (· < ·)
            ((a : Int) :: (u'.map symInt ++ dollarSym :: x))
            ((a : Int) :: (v'.map symInt ++ dollarSym :: y)) ↔
          List.Lex (· < ·) (a :: u') (a :: v')
        rw [List.Lex.cons_iff, List.Lex.cons_iff]
        exact ih v' x y (fun he => hne (by rw [he]))
      · constructor
        · intro h
          exfalso
          cases h with
          | rel h' =>
            have h'' : (a : Int) < (b : Int) := h'
            have : a < b := by exact_mod_cast h''
            omega
          | cons h' => omega
        · intro h
          exfalso
          cases h with
          | rel h' => omega
          | cons h' => omega

/-- Decomposition of a rotation of `T$` into suffix, dollar, and the symbols
before the suffix. -/
theorem rotation_eq {t : List Nat} {p : Nat} (hp : p ≤ t.length) :
    rotation t p = (t.drop p).map symInt ++
      dollarSym :: (t.take p).map symInt := by
  have hlen : p ≤ (t.map symInt).length := by
    rw [List.length_map]; exact hp
  rw [rotation, withDollar, List.drop_append_of_le_length hlen,
    List.take_append_of_le_length hlen, List.map_drop, List.map_take,
    List.append_assoc, List.singleton_append]

/-- On the positions `[0, N]`, the rotation order of `T$` restricted to the
proper suffix positions agrees with the suffix order. -/
theorem rotLt_iff_suffLt {t : List Nat} {p q : Nat}
    (hp : p ≤ t.length) (hq : q ≤ t.length) :
    rotLt t p q ↔ suffLt t p q := by
  by_cases hpq : p = q
  · subst hpq
    exact iff_of_false (rotLt_irrefl t p) (suffLt_irrefl t p)
  · have hne : t.drop p ≠ t.drop q := fun h => hpq (drop_injective hp hq h)
    rw [rotLt, rotation_eq hp, rotation_eq hq]
    exact lex_dollar_append _ _ _ _ hne

/-- Distinct positions in `[0, N]` give distinct rotations of `T$`. -/
theorem rotation_inj {t : List Nat} {p q : Nat}
    (hp : p ≤ t.length) (hq : q ≤ t.length) (h : rotation t p = rotation t q) :
    p = q := by
  by_contra hne
  have hne' : t.drop p ≠ t.drop q := fun h' => hne (drop_injective hp hq h')
  rcases suffLt_trichotomy t p q with hlt | heq | hlt
  · have := (rotLt_iff_suffLt hp hq).mpr hlt
    rw [rotLt, h] at this
    exact rotLt_irrefl t q this
  · exact hne' heq
  · have := (rotLt_iff_suffLt hq hp).mpr hlt
    rw [rotLt, h] at this
    exact rotLt_irrefl t q this

theorem sortedRotations_sorted_lt (t : List Nat) :
    List.Sorted (rotLt t) (sortedRotations t) := by
  have hmem := List.Pairwise.and_mem.1 (sortedRotations_sorted_le t)
  refine (hmem.imp₂ (fun p q hpq hne => ?_) (sortedRotations_nodup t))
  rcases hpq with ⟨hp, hq, hle⟩
  rcases rotLt_trichotomy t p q with h | h | h
  · exact h
  · exact absurd
      (rotation_inj (by have := sortedRotations_mem.1 hp; omega)
        (by have := sortedRotations_mem.1 hq; omega) h) hne
  · exact absurd h hle

/-- The rotation starting at the dollar is the least rotation of `T$`. -/
theorem rotLt_top {t : List Nat} {p : Nat} (hp : p < t.length) :
    rotLt t t.length p := by
  have h1 : rotation t t.length = dollarSym :: t.map symInt := by
    rw [rotation_eq le_rfl, List.drop_length, List.take_length, List.map_nil,
      List.nil_append]
  have hp' : t.drop p ≠ [] := by
    rw [Ne, List.drop_eq_nil_iff]
    omega
  obtain ⟨c, l', hc⟩ := List.exists_cons_of_ne_nil hp'
  have h2 : rotation t p = symInt c ::
      (l'.map symInt ++ dollarSym :: (t.take p).map symInt) := by
    rw [rotation_eq (le_of_lt hp), hc, List.map_cons, List.cons_append]
  rw [rotLt, h1, h2]
  refine List.Lex.rel ?_
  show dollarSym < symInt c
  have : (0 : Int) ≤ Int.ofNat c := Int.ofNat_nonneg c
  simp only [dollarSym, symInt]
  omega

/-- Prepending `N` to the sorted suffix positions is a permutation of
`[0, N]`. -/
theorem cons_sortedSuffixes_perm (t : List Nat) :
    List.Perm (t.length :: sortedSuffixes t) (List.range (t.length + 1)) := by
  rw [List.range_succ]
  exact ((sortedSuffixes_perm t).cons t.length).trans
    (List.perm_append_singleton t.length (List.range t.length)).symm

/-- The sorted rotation-start positions of `T$` are exactly the dollar
rotation followed by the sorted proper suffix positions. -/
theorem sortedRotations_eq (t : List Nat) :
    sortedRotations t = t.length :: sortedSuffixes t := by
  letI : IsAntisymm Nat (rotLt t) :=
    ⟨fun a b h h' => absurd (rotLt_trans h h') (rotLt_irrefl t a)⟩
  refine List.eq_of_perm_of_sorted
    ((sortedRotations_perm t).trans (cons_sortedSuffixes_perm t).symm)
    (sortedRotations_sorted_lt t) ?_
  rw [List.sorted_cons]
  constructor
  · intro p hp
    exact rotLt_top (sortedSuffixes_mem.1 hp)
  · refine (List.Pairwise.and_mem.1 (sortedSuffixes_sorted_lt t)).imp ?_
    rintro p q ⟨hp, hq, hlt⟩
    exact (rotLt_iff_suffLt (le_of_lt (sortedSuffixes_mem.1 hp))
      (le_of_lt (sortedSuffixes_mem.1 hq))).mpr hlt

/-! ### The last column of the sorted rotations -/

theorem rotation_getLastD_top {t : List Nat} (h : 0 < t.length) :
    (rotation t t.length).getLastD 0 = (t.getD (t.length - 1) 0 : Int) := by
  have h1 : rotation t t.length = [dollarSym] ++ t.map symInt := by
    rw [rotation_eq le_rfl, List.drop_length, List.take_length, List.map_nil,
      List.nil_append, List.singleton_append]
  have h2 : (t.map symInt).getLast? = some (t.getD (t.length - 1) 0 : Int) := by
    rw [List.getLast?_map, List.getLast?_eq_getElem?,
      List.getElem?_eq_getElem (by omega), List.getD_eq_getElem t 0 (by omega)]
    rfl
  rw [h1, List.getLastD_eq_getLast?, List.getLast?_append, h2]
  rfl

theorem rotation_getLastD_zero (t : List Nat) :
    (rotation t 0).getLastD 0 = dollarSym := by
  have h1 : rotation t 0 = t.map symInt ++ [dollarSym] := by
    rw [rotation_eq (Nat.zero_le _), List.drop_zero, List.take_zero, List.map_nil]
  rw [h1, List.getLastD_eq_getLast?, List.getLast?_append]
  rfl

theorem rotation_getLastD_mid {t : List Nat} {p : Nat} (h1 : 0 < p)
    (hp : p ≤ t.length) :
    (rotation t p).getLastD 0 = (t.getD (p - 1) 0 : Int) := by
  have htk : (t.take p).length = p := by
    rw [List.length_take]
    omega
  have h2 : rotation t p = ((t.drop p).map symInt ++ [dollarSym]) ++
      (t.take p).map symInt := by
    rw [rotation_eq hp, List.append_assoc, List.singleton_append]
  have h3 : ((t.take p).map symInt).getLast? =
      some (t.getD (p - 1) 0 : Int) := by
    rw [List.getLast?_map, List.getLast?_eq_getElem?, htk, List.getElem?_take,
      if_pos (by omega), List.getElem?_eq_getElem (by omega),
      List.getD_eq_getElem t 0 (by omega)]
    rfl
  rw [h2, List.getLastD_eq_getLast?, List.getLast?_append, h3]
  rfl

/-- The reference BWT, written over the dollar rotation followed by the
sorted proper suffixes: the first symbol is `T[N-1]`, and the symbol of the
suffix at `p` is the dollar for `p = 0` and `T[p-1]` otherwise. -/
theorem bwtRef_eq {t : List Nat} (h : 0 < t.length) :
    bwtRef t = (t.getD (t.length - 1) 0 : Int) ::
      (sortedSuffixes t).map
        (fun p => if p = 0 then dollarSym else (t.getD (p - 1) 0 : Int)) := by
  rw [bwtRef, sortedRotations_eq, List.map_cons, rotation_getLastD_top h]
  congr 1
  refine List.map_congr_left ?_
  intro p hp
  have hp' : p < t.length := sortedSuffixes_mem.1 hp
  by_cases hp0 : p = 0
  · subst hp0
    rw [if_pos rfl]
    exact rotation_getLastD_zero t
  · rw [if_neg hp0]
    exact rotation_getLastD_mid (by omega) (le_of_lt hp')

/-! ### List helpers for the BWT assembly -/

theorem findIdx_map_comp {α β : Type} (f : α → β) (p : β → Bool) :
    ∀ l : List α, (l.map f).findIdx p = l.findIdx (fun x => p (f x)) := by
  intro l
  induction l with
  | nil => rfl
  | cons a l ih => simp [List.findIdx_cons, ih]

theorem findIdx_congr {α : Type} (p q : α → Bool) :
    ∀ l : List α, (∀ x ∈ l, p x = q x) → l.findIdx p = l.findIdx q := by
  intro l
  induction l with
  | nil => intro _; rfl
  | cons a l ih =>
    intro h
    rw [List.findIdx_cons, List.findIdx_cons, h a (by simp),
      ih (fun x hx => h x (by simp [hx]))]

theorem map_eraseIdx {α β : Type} (f : α → β) :
    ∀ (l : List α) (k : Nat), (l.eraseIdx k).map f = (l.map f).eraseIdx k := by
  intro l
  induction l with
  | nil => intro k; rfl
  | cons a l ih =>
    intro k
    cases k with
    | zero => rfl
    | succ k => simp [List.eraseIdx_cons_succ, ih]

theorem insertIdx_eraseIdx_set {α : Type} (a : α) :
    ∀ (k : Nat) (l : List α), k < l.length →
      List.insertIdx k a (l.eraseIdx k) = l.set k a := by
  intro k
  induction k with
  | zero =>
    intro l hl
    cases l with
    | nil => simp at hl
    | cons b l => rfl
  | succ k ih =>
    intro l hl
    cases l with
    | nil => simp at hl
    | cons b l =>
      rw [List.eraseIdx_cons_succ, List.insertIdx_succ_cons, List.set_cons_succ,
        ih l (by simpa using hl)]

theorem sortedSuffixes_length (t : List Nat) :
    (sortedSuffixes t).length = t.length :=
  (sortedSuffixes_perm t).length_eq.trans (List.length_range _)

/-! ### The marker search of `StringBWTHandler::process_batch` -/

theorem functor_eq_marker_iff {t : List Nat} (h2 : ∀ c ∈ t, c < 255) {p : Nat}
    (hp : p < t.length) : string_bwt_functor t p = 255 ↔ p = 0 := by
  constructor
  · intro h
    by_contra hp0
    rw [string_bwt_functor, if_neg hp0] at h
    have hmem : t.getD (p - 1) 0 ∈ t := by
      rw [List.getD_eq_getElem t 0 (by omega)]
      exact List.getElem_mem _
    have := h2 _ hmem
    omega
  · intro h
    subst h
    rfl

/-- The `thrust::find` of the 255 marker over the block BWT finds exactly the
position of suffix 0 in the batch. -/
theorem blockPrimary_eq {t : List Nat} (h2 : ∀ c ∈ t, c < 255) :
    ((sortedSuffixes t).map (string_bwt_functor t)).findIdx (fun c => c == 255) =
      (sortedSuffixes t).findIdx (fun p => p == 0) := by
  rw [findIdx_map_comp]
  apply findIdx_congr
  intro x hx
  have hx' : x < t.length := sortedSuffixes_mem.1 hx
  have hiff := functor_eq_marker_iff h2 hx'
  by_cases hx0 : x = 0
  · simp [hx0, string_bwt_functor]
  · have hne : string_bwt_functor t x ≠ 255 := fun h => hx0 (hiff.mp h)
    simp [hx0, hne]

theorem findIdx_zero_lt {t : List Nat} (h1 : 0 < t.length) :
    (sortedSuffixes t).findIdx (fun p => p == 0) < (sortedSuffixes t).length :=
  List.findIdx_lt_length_of_exists ⟨0, sortedSuffixes_mem.2 h1, by simp⟩

theorem getElem_findIdx_zero {t : List Nat} (_h1 : 0 < t.length)
    (hk : (sortedSuffixes t).findIdx (fun p => p == 0) < (sortedSuffixes t).length) :
    (sortedSuffixes t)[(sortedSuffixes t).findIdx (fun p => p == 0)] = 0 := by
  have := @List.findIdx_getElem Nat (fun p => p == 0) (sortedSuffixes t) hk
  simpa using this

theorem getElem_eq_zero_iff {t : List Nat} (h1 : 0 < t.length) {i : Nat}
    (hi : i < (sortedSuffixes t).length) :
    (sortedSuffixes t)[i] = 0 ↔ i = (sortedSuffixes t).findIdx (fun p => p == 0) := by
  constructor
  · intro h
    have hk' := getElem_findIdx_zero h1 (findIdx_zero_lt h1)
    exact (@List.Nodup.getElem_inj_iff Nat (sortedSuffixes t)
      (sortedSuffixes_nodup t) i hi _ (findIdx_zero_lt h1)).1 (by rw [h, hk'])
  · intro h
    subst h
    exact getElem_findIdx_zero h1 hi

/-! ### The state of the handler after the sorted batch -/

theorem cuda_bwt_primary_eq {t : List Nat} (h1 : 0 < t.length)
    (h2 : ∀ c ∈ t, c < 255) :
    cuda_bwt_primary t = (sortedSuffixes t).findIdx (fun p => p == 0) + 1 := by
  have hk : (sortedSuffixes t).findIdx (fun p => p == 0) < (sortedSuffixes t).length :=
    findIdx_zero_lt h1
  have hlenmap : ((sortedSuffixes t).map (string_bwt_functor t)).length =
      (sortedSuffixes t).length := List.length_map _ _
  rw [cuda_bwt_primary, cuda_bwt_handler]
  show (if ((sortedSuffixes t).map (string_bwt_functor t)).findIdx (fun c => c == 255) <
        (sortedSuffixes t).length
      then (bwtInit t).n_output +
        ((sortedSuffixes t).map (string_bwt_functor t)).findIdx (fun c => c == 255) + 1
      else (bwtInit t).primary) = _
  rw [blockPrimary_eq h2, if_pos hk]
  show 0 + (sortedSuffixes t).findIdx (fun p => p == 0) + 1 = _
  omega

theorem handler_output_zero (t : List Nat) :
    (cuda_bwt_handler t).output 0 = t.getD (t.length - 1) 0 := by
  rw [cuda_bwt_handler]
  show (if (bwtInit t).n_output + 1 ≤ 0 ∧
        0 < (bwtInit t).n_output + 1 + (sortedSuffixes t).length
      then ((sortedSuffixes t).map (string_bwt_functor t)).getD
        (0 - ((bwtInit t).n_output + 1)) 0
      else (bwtInit t).output 0) = t.getD (t.length - 1) 0
  rw [if_neg (by omega)]
  simp [bwtInit]

theorem handler_output_succ {t : List Nat} {i : Nat} (hi : i < t.length) :
    (cuda_bwt_handler t).output (i + 1) =
      ((sortedSuffixes t).map (string_bwt_functor t)).getD i 0 := by
  rw [cuda_bwt_handler]
  show (if (bwtInit t).n_output + 1 ≤ i + 1 ∧
        i + 1 < (bwtInit t).n_output + 1 + (sortedSuffixes t).length
      then ((sortedSuffixes t).map (string_bwt_functor t)).getD
        (i + 1 - ((bwtInit t).n_output + 1)) 0
      else (bwtInit t).output (i + 1)) = _
  have hn0 : (bwtInit t).n_output = 0 := rfl
  rw [hn0, if_pos (by rw [sortedSuffixes_length]; omega),
    show i + 1 - (0 + 1) = i by omega]

/-- The `N` symbols emitted by `cuda::bwt` are the first BWT symbol followed
by the block BWT of the sorted batch with the dollar-marker slot removed. -/
theorem cuda_bwt_list_eq {t : List Nat} (h1 : 0 < t.length)
    (h2 : ∀ c ∈ t, c < 255) :
    cuda_bwt_list t = t.getD (t.length - 1) 0 ::
      ((sortedSuffixes t).map (string_bwt_functor t)).eraseIdx
        ((sortedSuffixes t).findIdx (fun p => p == 0)) := by
  have hLlen : (sortedSuffixes t).length = t.length := sortedSuffixes_length t
  have hk : (sortedSuffixes t).findIdx (fun p => p == 0) < t.length := by
    have := findIdx_zero_lt h1
    omega
  have hbblen : ((sortedSuffixes t).map (string_bwt_functor t)).length = t.length := by
    rw [List.length_map, hLlen]
  have hshift : ∀ n, cuda_bwt_out t n =
      if cuda_bwt_primary t ≤ n ∧ n < t.length
      then (cuda_bwt_handler t).output (n + 1)
      else (cuda_bwt_handler t).output n := by
    intro n
    rw [cuda_bwt_out, shift_back,
      shiftChunks_eq t.length (t.length - (cuda_bwt_handler t).primary)
        (cuda_bwt_handler t).primary (cuda_bwt_handler t).output le_rfl n]
    rfl
  apply List.ext_getElem
  · rw [show cuda_bwt_list t = (List.range t.length).map (cuda_bwt_out t) from rfl,
      List.length_map, List.length_range, List.length_cons, List.length_eraseIdx]
    rw [if_pos (by omega)]
    omega
  · intro n hL hR
    have hn : n < t.length := by
      rw [show cuda_bwt_list t = (List.range t.length).map (cuda_bwt_out t) from rfl,
        List.length_map, List.length_range] at hL
      exact hL
    have hgetL : (cuda_bwt_list t)[n] = cuda_bwt_out t n := by
      have hL' : n < ((List.range t.length).map (cuda_bwt_out t)).length := by
        rw [List.length_map, List.length_range]
        exact hn
      show ((List.range t.length).map (cuda_bwt_out t))[n] = cuda_bwt_out t n
      rw [List.getElem_map, List.getElem_range]
    rw [hgetL, hshift n, cuda_bwt_primary_eq h1 h2]
    match n, hn with
    | 0, hn =>
      rw [if_neg (by omega)]
      rw [handler_output_zero]
      rfl
    | j + 1, hn =>
      rw [List.getElem_cons_succ, List.getElem_eraseIdx]
      by_cases hjk : j < (sortedSuffixes t).findIdx (fun p => p == 0)
      · rw [dif_pos hjk, if_neg (by omega), handler_output_succ (by omega),
          List.getD_eq_getElem _ 0 (by omega)]
      · rw [dif_neg hjk, if_pos (by omega), handler_output_succ (by omega),
          List.getD_eq_getElem _ 0 (by omega)]

/-- Replacing the marker slot of the block BWT with the dollar yields exactly
the reference symbols of the sorted suffixes. -/
theorem set_map_marker {t : List Nat} (h1 : 0 < t.length) :
    ((((sortedSuffixes t).map (string_bwt_functor t)).map symInt).set
        ((sortedSuffixes t).findIdx (fun p => p == 0)) dollarSym) =
      (sortedSuffixes t).map
        (fun p => if p = 0 then dollarSym else (t.getD (p - 1) 0 : Int)) := by
  apply List.ext_getElem
  · rw [List.length_set, List.length_map, List.length_map, List.length_map]
  · intro j hL hR
    have hj : j < (sortedSuffixes t).length := by
      rw [List.length_map] at hR
      exact hR
    rw [List.getElem_set]
    by_cases hjk : (sortedSuffixes t).findIdx (fun p => p == 0) = j
    · rw [if_pos hjk, List.getElem_map]
      have h0 : (sortedSuffixes t)[j] = 0 := (getElem_eq_zero_iff h1 hj).2 hjk.symm
      rw [h0, if_pos rfl]
    · rw [if_neg hjk, List.getElem_map, List.getElem_map, List.getElem_map]
      have hne : (sortedSuffixes t)[j] ≠ 0 := fun h =>
        hjk ((getElem_eq_zero_iff h1 hj).1 h).symm
      rw [if_neg hne, string_bwt_functor, if_neg hne]
      rfl

/-! ### Claims C9, C3, C2, C4, C6, C7, C5, C10 -/

/-- C9: a default-constructed `BWTParams` has `host_memory = 8 GiB` and
`device_memory = 2 GiB`; when params are supplied, the string-set
orchestrator derives the super-block capacity as
`(host_memory - 128 MiB) / 8` suffixes and the device block capacity as
`device_memory / 32` suffixes (whenever those fit the `uint32` they are
stored into, which holds in particular for the defaults). -/
theorem claim_C9_budgets :
    bwtParamsDefault.host_memory = 8 * 1024 ^ 3 ∧
    bwtParamsDefault.device_memory = 2 * 1024 ^ 3 ∧
    (∀ p : BWTParams, 128 * 1024 ^ 2 ≤ p.host_memory → p.host_memory < 2 ^ 64 →
      (p.host_memory - 128 * 1024 ^ 2) / 8 < 2 ^ 32 →
      max_super_block_size (some p) = (p.host_memory - 128 * 1024 ^ 2) / 8) ∧
    (∀ p : BWTParams, p.device_memory / 32 < 2 ^ 32 →
      max_block_size (some p) = p.device_memory / 32) := by
  refine ⟨by norm_num [bwtParamsDefault], by norm_num [bwtParamsDefault], ?_, ?_⟩
  · intro p h1 h2 h3
    have hms : max_super_block_size (some p) =
        (((p.host_memory + 2 ^ 64 - 128 * 1024 * 1024) % 2 ^ 64) / 8) % 2 ^ 32 := rfl
    have e1 : p.host_memory + 2 ^ 64 - 128 * 1024 * 1024 =
        (p.host_memory - 128 * 1024 ^ 2) + 2 ^ 64 := by norm_num; omega
    rw [hms, e1, Nat.add_mod_right, Nat.mod_eq_of_lt (by omega),
      Nat.mod_eq_of_lt (by norm_num at h3 ⊢; omega)]
  · intro p h1
    have hms : max_block_size (some p) = (p.device_memory / 32) % 2 ^ 32 := rfl
    rw [hms, Nat.mod_eq_of_lt h1]

/-- Witness for C9 at the default parameters. -/
theorem claim_C9_budgets_witness :
    max_super_block_size (some bwtParamsDefault) = 1056964608 ∧
    max_block_size (some bwtParamsDefault) = 67108864 := by
  have h := claim_C9_budgets
  constructor
  · rw [h.2.2.1 bwtParamsDefault (by norm_num [bwtParamsDefault])
      (by norm_num [bwtParamsDefault]) (by norm_num [bwtParamsDefault])]
    norm_num [bwtParamsDefault]
  · rw [h.2.2.2 bwtParamsDefault (by norm_num [bwtParamsDefault])]
    norm_num [bwtParamsDefault]

/-- C3: `LargeBWTStatus` converts to `bool` as `true` exactly when `code = OK`,
so each `if (status = enact(...)) return;` of the `large_bwt` escalation chain
returns on success (and then the wider configurations are irrelevant), and
falls through to the next wider bucketing only on a large-bucket failure. -/
theorem claim_C3_status_bool :
    (∀ s : LargeBWTStatus, s.toBool = true ↔ s.code = statusOK) ∧
    (∀ enact : Nat → LargeBWTStatus, (enact 16).code = statusOK →
      large_bwt enact = Except.ok ()) ∧
    (∀ enact enact' : Nat → LargeBWTStatus, enact 16 = enact' 16 →
      (enact 16).code = statusOK → large_bwt enact = large_bwt enact') ∧
    (∀ enact : Nat → LargeBWTStatus, (enact 16).code = statusLargeBucket →
      (enact 20).code = statusOK → large_bwt enact = Except.ok ()) ∧
    (∀ enact : Nat → LargeBWTStatus, (enact 16).code = statusLargeBucket →
      (enact 20).code = statusLargeBucket → (enact 24).code = statusOK →
      large_bwt enact = Except.ok ()) ∧
    (∀ enact : Nat → LargeBWTStatus, (enact 16).code = statusLargeBucket →
      (enact 20).code = statusLargeBucket → (enact 24).code = statusLargeBucket →
      large_bwt enact = Except.error (largeBucketPayload (enact 24))) := by
  refine ⟨?_, ?_, ?_, ?_, ?_, ?_⟩
  · intro s
    simp [LargeBWTStatus.toBool]
  · intro enact h
    simp [large_bwt, LargeBWTStatus.toBool, h]
  · intro enact enact' he h
    have h' : (enact' 16).code = statusOK := by rw [← he]; exact h
    simp [large_bwt, LargeBWTStatus.toBool, h, h']
  · intro enact h16 h20
    simp [large_bwt, LargeBWTStatus.toBool, h16, h20, statusOK, statusLargeBucket]
  · intro enact h16 h20 h24
    simp [large_bwt, LargeBWTStatus.toBool, h16, h20, h24, statusOK, statusLargeBucket]
  · intro enact h16 h20 h24
    simp [large_bwt, LargeBWTStatus.toBool, h16, h20, h24, statusOK, statusLargeBucket]

/-- Witness for C3: a run whose 16-bit attempt succeeds returns success. -/
theorem claim_C3_status_bool_witness :
    large_bwt (fun _ => LargeBWTStatus.init) = Except.ok () :=
  claim_C3_status_bool.2.1 (fun _ => LargeBWTStatus.init) rfl

/-- C2: the string-set orchestrator escalates the bucketing width through
`{16, 20, 24}`, returning as soon as an attempt succeeds (a successful 16-bit
attempt makes the later attempts irrelevant); only when all three attempts
report a large-bucket failure does the error surface, carrying the offending
bucket index, its size, and the recommended minimum device budget; an attempt
fails exactly when some non-short-string bucket holds more suffixes than the
device budget `device_memory / 32`. -/
theorem claim_C2_escalation :
    (∀ enact : Nat → LargeBWTStatus, (enact 16).code = statusOK →
      cuda_bwt_set enact = Except.ok ()) ∧
    (∀ enact enact' : Nat → LargeBWTStatus, enact 16 = enact' 16 →
      (enact 16).code = statusOK → cuda_bwt_set enact = cuda_bwt_set enact') ∧
    (∀ enact : Nat → LargeBWTStatus, (enact 16).code = statusLargeBucket →
      (enact 20).code = statusOK → cuda_bwt_set enact = Except.ok ()) ∧
    (∀ enact : Nat → LargeBWTStatus, (enact 16).code = statusLargeBucket →
      (enact 20).code = statusLargeBucket → (enact 24).code = statusOK →
      cuda_bwt_set enact = Except.ok ()) ∧
    (∀ enact : Nat → LargeBWTStatus, (enact 16).code = statusLargeBucket →
      (enact 20).code = statusLargeBucket → (enact 24).code = statusLargeBucket →
      cuda_bwt_set enact = Except.error
        { bucket_index := (enact 24).bucket_index
          bucket_size := (enact 24).bucket_size
          min_device_mb := divide_ri (enact 24).bucket_size (1024 * 1024) * 32 }) ∧
    (∀ (hist : List Nat) (super mask : Nat) (p : BWTParams),
      (∀ v ∈ hist, v ≤ super) →
      ∃ ms st, max_subbucket_size hist super (max_block_size (some p)) mask =
          Except.ok (ms, st) ∧
        (st.code = statusLargeBucket ↔
          ∃ i, i < hist.length ∧ i &&& mask = mask ∧
            max_block_size (some p) < hist.getD i 0)) := by
  refine ⟨?_, ?_, ?_, ?_, ?_, ?_⟩
  · intro enact h
    simp [cuda_bwt_set, LargeBWTStatus.toBool, h]
  · intro enact enact' he h
    have h' : (enact' 16).code = statusOK := by rw [← he]; exact h
    simp [cuda_bwt_set, LargeBWTStatus.toBool, h, h']
  · intro enact h16 h20
    simp [cuda_bwt_set, LargeBWTStatus.toBool, h16, h20, statusOK, statusLargeBucket]
  · intro enact h16 h20 h24
    simp [cuda_bwt_set, LargeBWTStatus.toBool, h16, h20, h24, statusOK, statusLargeBucket]
  · intro enact h16 h20 h24
    simp [cuda_bwt_set, LargeBWTStatus.toBool, h16, h20, h24, statusOK, statusLargeBucket,
      largeBucketPayload]
  · intro hist super mask p hv
    obtain ⟨ms, st, h1, h2, _⟩ :=
      max_subbucket_size_spec hist super (max_block_size (some p)) mask hv
    exact ⟨ms, st, h1, h2⟩

/-- Witness for C2: a run failing at all three widths surfaces the error with
the payload of the last attempt. -/
theorem claim_C2_escalation_witness :
    cuda_bwt_set
        (fun _ => { code := statusLargeBucket, bucket_size := 5, bucket_index := 9 }) =
      Except.error { bucket_index := 9, bucket_size := 5, min_device_mb := 32 } := by
  have h := claim_C2_escalation.2.2.2.2.1
    (fun _ => { code := statusLargeBucket, bucket_size := 5, bucket_index := 9 })
    rfl rfl rfl
  rw [h]
  rfl

/-- C4 counterexample: the claim calls a bucket whose trailing `DOLLAR_BITS`
field saturates at `2^DOLLAR_BITS - 1` a short-string bucket and exempts it
from the device block-size budget check no matter its size.  In the code the
opposite holds: with `DOLLAR_BITS = 4` (mask 15), bucket 15 has a saturated
trailing field, yet with 100 suffixes against a limit of 10 it is exactly the
bucket that triggers the `LargeBucket` status. -/
theorem claim_C4_counterexample :
    (15 &&& 15 = 15) ∧
    max_subbucket_size [0, 0, 0, 0, 0, 0, 0, 0, 0, 0, 0, 0, 0, 0, 0, 100] 1000 10 15 =
      Except.ok (100,
        { code := statusLargeBucket, bucket_size := 100, bucket_index := 15 }) := by
  constructor
  · rfl
  · rfl

/-- C4 (amended): a short-string bucket — one whose trailing `DOLLAR_BITS`
field equals `2^DOLLAR_BITS - 2` or less, i.e. does NOT saturate — is exempt
from the device block-size memory-budget check no matter how many suffixes it
contains, and when it exceeds the device block size it is not routed through
the block sorter: its symbols are emitted directly via the predecessor-symbol
path.  Every bucket with a saturated trailing field larger than the limit
triggers the large-bucket status. -/
theorem claim_C4_short_buckets :
    (∀ (hist : List Nat) (super limit mask : Nat), (∀ v ∈ hist, v ≤ super) →
      ∃ ms st, max_subbucket_size hist super limit mask = Except.ok (ms, st) ∧
        (st.code = statusLargeBucket ↔
          ∃ i, i < hist.length ∧ i &&& mask = mask ∧ limit < hist.getD i 0)) ∧
    (∀ bucketSize maxBlock idx mask : Nat, maxBlock < bucketSize →
      idx &&& mask ≠ mask →
      subbucket_route bucketSize maxBlock idx mask = SubbucketRoute.directEmit) ∧
    (∀ bucketSize maxBlock idx mask : Nat, maxBlock < bucketSize →
      idx &&& mask = mask →
      subbucket_route bucketSize maxBlock idx mask = SubbucketRoute.overflowError) := by
  refine ⟨?_, ?_, ?_⟩
  · intro hist super limit mask hv
    obtain ⟨ms, st, h1, h2, _⟩ := max_subbucket_size_spec hist super limit mask hv
    exact ⟨ms, st, h1, h2⟩
  · intro bucketSize maxBlock idx mask h1 h2
    simp [subbucket_route, h1, h2]
  · intro bucketSize maxBlock idx mask h1 h2
    simp [subbucket_route, h1, h2]

/-- Witness for C4 (amended): a short-string bucket (index 3, mask 12,
trailing field not saturated) of size 1000 against limit 10 does not raise
the status, and when over the block size it takes the direct-emit route. -/
theorem claim_C4_short_buckets_witness :
    (∃ ms st, max_subbucket_size [0, 0, 0, 1000] 2000 10 12 = Except.ok (ms, st) ∧
      (st.code = statusLargeBucket ↔
        ∃ i, i < 4 ∧ i &&& 12 = 12 ∧ 10 < List.getD [0, 0, 0, 1000] i 0)) ∧
    subbucket_route 1000 10 3 12 = SubbucketRoute.directEmit := by
  constructor
  · have h := claim_C4_short_buckets.1 [0, 0, 0, 1000] 2000 10 12 (by decide)
    simpa using h
  · exact claim_C4_short_buckets.2.1 1000 10 3 12 (by norm_num) (by decide)

/-- C6: the final shifting phase of `cuda::bwt` moves the tail left by one in
fixed-size chunks: every slot `i` with `primary ≤ i < N` ends with the value
previously written at slot `i + 1`, and every slot `i < primary` is left
unchanged. -/
theorem claim_C6_shift_back (out : Nat → Nat) (primary N : Nat) :
    (∀ i, primary ≤ i → i < N → shift_back N out primary i = out (i + 1)) ∧
    (∀ i, i < primary → shift_back N out primary i = out i) := by
  constructor
  · intro i h1 h2
    rw [shift_back, shiftChunks_eq N (N - primary) primary out le_rfl i,
      if_pos ⟨h1, h2⟩]
  · intro i h1
    rw [shift_back, shiftChunks_eq N (N - primary) primary out le_rfl i,
      if_neg (by omega)]

/-- Witness for C6 on a concrete buffer. -/
theorem claim_C6_shift_back_witness :
    shift_back 5 (fun i => 10 + i) 2 3 = 14 ∧
    shift_back 5 (fun i => 10 + i) 2 1 = 11 :=
  ⟨(claim_C6_shift_back (fun i => 10 + i) 2 5).1 3 (by norm_num) (by norm_num),
   (claim_C6_shift_back (fun i => 10 + i) 2 5).2 1 (by norm_num)⟩

/-- C7: before any counting, collection or sorting, `enact` emits exactly one
BWT symbol per input string — the last symbol of the string, the predecessor
of its dollar — processed in increasing string-index order in contiguous
blocks, and these `N` symbols form the prefix of the output stream no matter
what is emitted afterwards. -/
theorem claim_C7_dollar_phase (S : List (List Nat)) (blockSize : Nat)
    (hbs : 0 < blockSize) :
    enact_dollar_phase S blockSize = S.map (fun s => s.getLastD 0) ∧
    (enact_dollar_phase S blockSize).length = S.length ∧
    (∀ rest : List Nat, (enact_dollar_phase S blockSize ++ rest).take S.length =
      S.map (fun s => s.getLastD 0)) := by
  have h1 : enact_dollar_phase S blockSize = S.map (fun s => s.getLastD 0) := by
    rw [enact_dollar_phase, dollarLoop_eq S blockSize hbs S.length 0 (by omega)]
    rw [Nat.sub_zero, show List.range' 0 S.length = List.range S.length from
      (List.range_eq_range' S.length).symm]
    conv_rhs => rw [← range_map_getD S ([] : List Nat)]
    rw [List.map_map]
    rfl
  have h2 : (enact_dollar_phase S blockSize).length = S.length := by
    rw [h1, List.length_map]
  refine ⟨h1, h2, fun rest => ?_⟩
  have h3 : S.length = (S.map (fun s => s.getLastD 0)).length :=
    (List.length_map _ _).symm
  rw [h1, h3, List.take_left]

/-- Witness for C7 on a three-string set with block size 2. -/
theorem claim_C7_dollar_phase_witness :
    enact_dollar_phase [[1, 2], [3], [4, 5, 6]] 2 = [2, 3, 6] := by
  rw [(claim_C7_dollar_phase [[1, 2], [3], [4, 5, 6]] 2 (by norm_num)).1]
  rfl

/-- C5: for a non-empty input string, `cuda::bwt` writes `T[N-1]` to output
slot 0 before the suffix blocks are processed, and neither `process_batch`
nor `process_scattered` ever touches slot 0 (so the symbol is still there
after the whole pipeline). -/
theorem claim_C5_first_symbol (t : List Nat) (_hpos : 0 < t.length) :
    (bwtInit t).output 0 = t.getD (t.length - 1) 0 ∧
    (∀ (batch : List Nat) (st : StringBWTHandler),
      (processBatch t batch st).output 0 = st.output 0) ∧
    (∀ (suffixes slots : List Nat) (st : StringBWTHandler),
      (processScattered t suffixes slots st).output 0 = st.output 0) ∧
    (cuda_bwt_handler t).output 0 = t.getD (t.length - 1) 0 := by
  have hinit : (bwtInit t).output 0 = t.getD (t.length - 1) 0 := by
    simp [bwtInit]
  have hbatch : ∀ (batch : List Nat) (st : StringBWTHandler),
      (processBatch t batch st).output 0 = st.output 0 := by
    intro batch st
    simp only [processBatch]
    rw [if_neg (by omega)]
  have hscat : ∀ (suffixes slots : List Nat) (st : StringBWTHandler),
      (processScattered t suffixes slots st).output 0 = st.output 0 := by
    intro suffixes slots st
    simp only [processScattered]
    generalize st.output = f
    induction List.range suffixes.length generalizing f with
    | nil => rfl
    | cons j js ih =>
      rw [List.foldl_cons, ih]
      rw [Function.update_noteq (by omega)]
  exact ⟨hinit, hbatch, hscat, by rw [cuda_bwt_handler, hbatch, hinit]⟩

/-- Witness for C5 on a concrete string. -/
theorem claim_C5_first_symbol_witness :
    (cuda_bwt_handler [7, 8, 9]).output 0 = 9 :=
  (claim_C5_first_symbol [7, 8, 9] (by norm_num)).2.2.2

/-- C10: the single-string `cuda::suffix_sort` writes `N` (the position of
the implicit empty suffix) at output slot 0 and the sorted proper suffix
positions at slots 1 through N, producing `N + 1` entries in total, strictly
sorted by suffix order (the empty suffix ranks first). -/
theorem claim_C10_suffix_sort (t : List Nat) :
    (suffix_sort_single t).length = t.length + 1 ∧
    (suffix_sort_single t).head? = some t.length ∧
    List.Perm (suffix_sort_single t) (List.range (t.length + 1)) ∧
    List.Sorted (suffLt t) (suffix_sort_single t) := by
  refine ⟨?_, rfl, ?_, ?_⟩
  · rw [suffix_sort_single, List.length_cons, (sortedSuffixes_perm t).length_eq,
      List.length_range]
  · rw [suffix_sort_single, List.range_succ]
    exact ((sortedSuffixes_perm t).cons t.length).trans
      (List.perm_append_singleton t.length (List.range t.length)).symm
  · rw [suffix_sort_single, List.sorted_cons]
    refine ⟨fun p hp => ?_, sortedSuffixes_sorted_lt t⟩
    have hplen : p < t.length := sortedSuffixes_mem.1 hp
    have hN : t.drop t.length = [] := by rw [List.drop_eq_nil_iff]
    have hp' : t.drop p ≠ [] := by
      rw [Ne, List.drop_eq_nil_iff]
      omega
    obtain ⟨a, l', he⟩ := List.exists_cons_of_ne_nil hp'
    rw [suffLt, hN, he]
    exact List.Lex.nil

/-- C1: for every non-empty string over a supported alphabet (symbols below
the reserved marker 255), `cuda::bwt` emits exactly `N` symbols, returns a
primary in `[0, N]`, and inserting the dollar at the primary position into
the emitted output yields the BWT of `T$` under the reference rotation-sort
definition. -/
theorem claim_C1_bwt (t : List Nat) (h1 : 0 < t.length)
    (h2 : ∀ c ∈ t, c < 255) :
    (cuda_bwt_list t).length = t.length ∧
    cuda_bwt_primary t ≤ t.length ∧
    List.insertIdx (cuda_bwt_primary t) dollarSym
      ((cuda_bwt_list t).map symInt) = bwtRef t := by
  have hk : (sortedSuffixes t).findIdx (fun p => p == 0) < t.length := by
    have := findIdx_zero_lt h1
    rw [sortedSuffixes_length] at this
    exact this
  refine ⟨?_, ?_, ?_⟩
  · rw [show cuda_bwt_list t = (List.range t.length).map (cuda_bwt_out t) from rfl,
      List.length_map, List.length_range]
  · rw [cuda_bwt_primary_eq h1 h2]
    omega
  · rw [cuda_bwt_list_eq h1 h2, cuda_bwt_primary_eq h1 h2, List.map_cons,
      List.insertIdx_succ_cons, map_eraseIdx,
      insertIdx_eraseIdx_set dollarSym _ _
        (by rw [List.length_map, List.length_map, sortedSuffixes_length]; exact hk),
      set_map_marker h1, bwtRef_eq h1]
    rfl

/-- Witness for C1 on `banana` (b=1, a=0, n=2). -/
theorem claim_C1_bwt_witness :
    (0 < ([1, 0, 2, 0, 2, 0] : List Nat).length) ∧
    (List.insertIdx (cuda_bwt_primary [1, 0, 2, 0, 2, 0]) dollarSym
      ((cuda_bwt_list [1, 0, 2, 0, 2, 0]).map symInt) = bwtRef [1, 0, 2, 0, 2, 0]) :=
  ⟨by decide, (claim_C1_bwt [1, 0, 2, 0, 2, 0] (by decide) (by decide)).2.2⟩


/-! ### `find_primary` as the dollar position -/

/-- The position of suffix 0 in the sorted suffix list counts exactly the
suffixes that compare less than the whole string. -/
theorem countP_sortedSuffixes_eq_findIdx {t : List Nat} (h1 : 0 < t.length) :
    (sortedSuffixes t).countP (fun p => decide (suffLt t p 0)) =
      (sortedSuffixes t).findIdx (fun p => p == 0) := by
  have hk : (sortedSuffixes t).findIdx (fun p => p == 0) < (sortedSuffixes t).length :=
    findIdx_zero_lt h1
  have hLk : (sortedSuffixes t)[(sortedSuffixes t).findIdx (fun p => p == 0)] = 0 :=
    getElem_findIdx_zero h1 hk
  have hdrop : (sortedSuffixes t).drop ((sortedSuffixes t).findIdx (fun p => p == 0)) =
      0 :: (sortedSuffixes t).drop ((sortedSuffixes t).findIdx (fun p => p == 0) + 1) := by
    rw [List.drop_eq_getElem_cons hk, hLk]
  have hsorted := sortedSuffixes_sorted_lt t
  have hcount : (sortedSuffixes t).countP (fun p => decide (suffLt t p 0)) =
      ((sortedSuffixes t).take ((sortedSuffixes t).findIdx (fun p => p == 0))).countP
        (fun p => decide (suffLt t p 0)) +
      ((sortedSuffixes t).drop ((sortedSuffixes t).findIdx (fun p => p == 0))).countP
        (fun p => decide (suffLt t p 0)) := by
    conv_lhs => rw [(List.take_append_drop
      ((sortedSuffixes t).findIdx (fun p => p == 0)) (sortedSuffixes t)).symm]
    rw [List.countP_append]
  have htake : ((sortedSuffixes t).take
        ((sortedSuffixes t).findIdx (fun p => p == 0))).countP
      (fun p => decide (suffLt t p 0)) =
      (sortedSuffixes t).findIdx (fun p => p == 0) := by
    have hlen : ((sortedSuffixes t).take
        ((sortedSuffixes t).findIdx (fun p => p == 0))).length =
        (sortedSuffixes t).findIdx (fun p => p == 0) := by
      rw [List.length_take]
      omega
    have hall : ((sortedSuffixes t).take
        ((sortedSuffixes t).findIdx (fun p => p == 0))).countP
        (fun p => decide (suffLt t p 0)) =
        ((sortedSuffixes t).take ((sortedSuffixes t).findIdx (fun p => p == 0))).length := by
      rw [List.countP_eq_length]
      intro a ha
      have h0mem : (0 : Nat) ∈ (sortedSuffixes t).drop
          ((sortedSuffixes t).findIdx (fun p => p == 0)) := by
        rw [hdrop]
        exact List.mem_cons_self _ _
      have := hsorted.rel_of_mem_take_of_mem_drop ha h0mem
      simpa using this
    rw [hall, hlen]
  have hdropc : ((sortedSuffixes t).drop
        ((sortedSuffixes t).findIdx (fun p => p == 0))).countP
      (fun p => decide (suffLt t p 0)) = 0 := by
    rw [List.countP_eq_zero]
    intro a ha
    have hpair : List.Pairwise (suffLt t)
        ((sortedSuffixes t).drop ((sortedSuffixes t).findIdx (fun p => p == 0))) :=
      List.Pairwise.sublist (List.drop_sublist _ _) hsorted
    rw [hdrop] at ha hpair
    rcases List.mem_cons.mp ha with rfl | ha'
    · simpa using suffLt_irrefl t 0
    · have := (List.sorted_cons.mp hpair).1 a ha'
      simpa using suffLt_asymm this
  omega

/-- The counting loop of `find_primary` computes the index of suffix 0 in the
sorted suffix list. -/
theorem range_countP_eq_findIdx {t : List Nat} (h1 : 0 < t.length) :
    ((List.range' 1 (t.length - 1)).countP (fun p => decide (suffLt t p 0))) =
      (sortedSuffixes t).findIdx (fun p => p == 0) := by
  obtain ⟨m, hm⟩ : ∃ m, t.length = m + 1 := ⟨t.length - 1, by omega⟩
  have hperm := (sortedSuffixes_perm t).countP_eq (fun p => decide (suffLt t p 0))
  rw [countP_sortedSuffixes_eq_findIdx h1] at hperm
  have hrange : List.range (m + 1) = 0 :: List.range' 1 m := by
    rw [List.range_eq_range', List.range'_succ]
  have h0 : (List.range (m + 1)).countP (fun p => decide (suffLt t p 0)) =
      (List.range' 1 m).countP (fun p => decide (suffLt t p 0)) := by
    rw [hrange, List.countP_cons, if_neg (by simpa using suffLt_irrefl t 0)]
    omega
  rw [show t.length - 1 = m from by omega, ← h0, ← hm]
  exact hperm.symm

/-- C8: `find_primary` returns one plus the number of positions in `[1, N)`
whose suffix is lexicographically less than the suffix at 0; this value lies
in `[1, N]` and is exactly the unique position of the end-marker in the BWT
of `T$`. -/
theorem claim_C8_find_primary (t : List Nat) (h1 : 0 < t.length) :
    find_primary t =
      ((List.range' 1 (t.length - 1)).countP (fun p => decide (suffLt t p 0))) + 1 ∧
    1 ≤ find_primary t ∧ find_primary t ≤ t.length ∧
    (bwtRef t)[find_primary t]? = some dollarSym ∧
    (∀ j, (bwtRef t)[j]? = some dollarSym → j = find_primary t) := by
  have hk : (sortedSuffixes t).findIdx (fun p => p == 0) < (sortedSuffixes t).length :=
    findIdx_zero_lt h1
  have hkN : (sortedSuffixes t).findIdx (fun p => p == 0) < t.length := by
    rw [sortedSuffixes_length] at hk
    exact hk
  have hfp : find_primary t = (sortedSuffixes t).findIdx (fun p => p == 0) + 1 := by
    rw [find_primary, range_countP_eq_findIdx h1]
  refine ⟨rfl, by omega, by omega, ?_, ?_⟩
  · rw [bwtRef_eq h1, hfp, List.getElem?_cons_succ, List.getElem?_map,
      List.getElem?_eq_getElem hk, getElem_findIdx_zero h1 hk, Option.map_some']
    simp
  · intro j hj
    rw [bwtRef_eq h1] at hj
    match j with
    | 0 =>
      rw [List.getElem?_cons_zero] at hj
      have hx := Option.some.inj hj
      have hnn : (0 : Int) ≤ (t.getD (t.length - 1) 0 : Int) :=
        Int.natCast_nonneg _
      rw [hx] at hnn
      simp only [dollarSym] at hnn
      omega
    | j + 1 =>
      rw [List.getElem?_cons_succ, List.getElem?_map] at hj
      by_cases hjl : j < (sortedSuffixes t).length
      · rw [List.getElem?_eq_getElem hjl, Option.map_some'] at hj
        have hval := Option.some.inj hj
        by_cases h0 : (sortedSuffixes t)[j] = 0
        · rw [hfp, (getElem_eq_zero_iff h1 hjl).1 h0]
        · rw [if_neg h0] at hval
          have hnn : (0 : Int) ≤ ((t.getD ((sortedSuffixes t)[j] - 1) 0 : Nat) : Int) :=
            Int.natCast_nonneg _
          rw [hval] at hnn
          simp only [dollarSym] at hnn
          omega
      · rw [List.getElem?_eq_none (by omega)] at hj
        simp at hj

/-- Witness for C8 on `banana` (b=1, a=0, n=2): the primary is 4, the dollar
position in `annb$aa`. -/
theorem claim_C8_find_primary_witness :
    (0 < ([1, 0, 2, 0, 2, 0] : List Nat).length) ∧
    1 ≤ find_primary [1, 0, 2, 0, 2, 0] ∧ find_primary [1, 0, 2, 0, 2, 0] ≤ 6 ∧
    (bwtRef [1, 0, 2, 0, 2, 0])[find_primary [1, 0, 2, 0, 2, 0]]? = some dollarSym :=
  ⟨by decide,
   (claim_C8_find_primary [1, 0, 2, 0, 2, 0] (by decide)).2.1,
   (claim_C8_find_primary [1, 0, 2, 0, 2, 0] (by decide)).2.2.1,
   (claim_C8_find_primary [1, 0, 2, 0, 2, 0] (by decide)).2.2.2.1⟩

end nvbio
